import Mathlib

/-!
Shallow embedding of `src/regex.py`: a finite-state-machine regex matcher.

State objects of the Python program are represented as nodes in an arena
(`World`), addressed by index; `next_states` lists become lists of indices.
The Python class attributes `RegexFSM.curr_state` (a `StartState`) and
`RegexFSM.term_state` (a `TerminationState`) are shared, process-wide
mutable objects; they are modelled as the fixed indices 0 and 1 of the
world, and compilation threads the world explicitly so that this sharing
and the in-place mutations performed by `StarState.__init__` /
`PlusState.__init__` are captured faithfully.
-/

namespace DiscreteRegex

/-- Tag of a state object: one constructor per concrete `State` subclass of
the Python source (`StartState`, `TerminationState`, `DotState`,
`AsciiState`, `StarState`, `PlusState`).  `StarState`/`PlusState` keep the
index of their `checking_state`. -/
inductive SKind where
  | start
  | termination
  | dot
  | ascii (sym : Char)
  | star (checking : Nat)
  | plus (checking : Nat)
deriving DecidableEq

/-- One state object: its tag and its `next_states` list (as indices). -/
structure Node where
  kind : SKind
  next : List Nat
deriving DecidableEq

/-- The heap of state objects.  Index 0 is the shared `RegexFSM.curr_state`
(start) object, index 1 the shared `RegexFSM.term_state` object. -/
abbrev World := List Node

/-- Node returned for an index that denotes no object.  This situation never
arises in compiled worlds; the choice of an inert start-kind node (accepts
nothing, no successors) is immaterial. -/
def defaultNode : Node := ⟨.start, []⟩

/-- Dereference a state index. -/
def getNode (w : World) (i : Nat) : Node := w.getD i defaultNode

/-- Replace the `next_states` list of object `i` (no-op out of range, which
never happens in compiled worlds). -/
def setNext (w : World) (i : Nat) (ns : List Nat) : World :=
  w.set i ⟨(getNode w i).kind, ns⟩

/-- Translation of `obj.next_states.append(x)` on object `i`. -/
def appendNext (w : World) (i x : Nat) : World :=
  setNext w i ((getNode w i).next ++ [x])

/-- The world as it stands when the class body of `RegexFSM` has executed:
the shared `StartState()` and `TerminationState()` objects exist, both with
empty `next_states`. -/
def initWorld : World := [⟨.start, []⟩, ⟨.termination, []⟩]

/-- Translation of Python `str.isascii()` on a single character: true iff
the code point is below 128. -/
def isAsciiChar (c : Char) : Bool := c.toNat < 128

/-- Translation of `RegexFSM.__init_next_state`.  Given the token, the
current world and the `prev_state` / `tmp_next_state` indices, it returns
the world after the state constructor ran (for `*`/`+` the constructor
mutates the wrapped state) together with the new state's index, or the
`AttributeError` message.  The guards are tried in source order:
`"."`, `"*"`, `"+"`, `isascii()`, else raise. -/
def initNextState (tok : Char) (w : World) (_prev tmp : Nat) :
    Except String (World × Nat) :=
  if tok = '.' then
    .ok (w ++ [⟨.dot, []⟩], w.length)
  else if tok = '*' then
    -- StarState.__init__: next_states = [checking] then extended with a
    -- copy of checking.next_states as read BEFORE the final
    -- checking.next_states.append(self).
    let n := w.length
    let w1 := w ++ [⟨.star tmp, tmp :: (getNode w tmp).next⟩]
    .ok (appendNext w1 tmp n, n)
  else if tok = '+' then
    -- PlusState.__init__ has the same mutation pattern as StarState.
    let n := w.length
    let w1 := w ++ [⟨.plus tmp, tmp :: (getNode w tmp).next⟩]
    .ok (appendNext w1 tmp n, n)
  else if isAsciiChar tok then
    .ok (w ++ [⟨.ascii tok, []⟩], w.length)
  else
    .error "Character is not supported"

/-- Translation of the `for char in regex_expr` loop of `RegexFSM.__init__`
followed by the final `prev_state.next_states.append(self.term_state)`.
The Python guard `if tmp_next_state:` is always true (state objects are
truthy and `__init_next_state` never returns `None` on success), so the
body runs unconditionally. -/
def compileAux : List Char → World → Nat → Nat → Except String World
  | [], w, prev, _tmp => .ok (appendNext w prev 1)
  | c :: cs, w, prev, tmp =>
    match initNextState c w prev tmp with
    | .error e => .error e
    | .ok (w1, n) => compileAux cs (appendNext w1 prev n) n n
  -- the guard `if tmp_next_state:` of the source is always satisfied;
  -- `tmp` is threaded as the most recently created state, like the source.

/-- Translation of `RegexFSM.__init__(regex_expr)` run against an existing
world `w` (the shared class attributes survive between constructions).
`prev_state` and `tmp_next_state` both start at `self.curr_state`,
index 0. -/
def compile (p : String) (w : World) : Except String World :=
  compileAux p.toList w 0 0

/-- Compilation in a fresh process: exactly one `RegexFSM(...)` has been
constructed. -/
def compileFresh (p : String) : Except String World := compile p initWorld

/-- Translation of `State.check_self`.  `StarState`/`PlusState` delegate to
their `checking_state`, hence the fuel; in compiled worlds the chain of
`checking` indices is strictly decreasing, so `w.length + 1` fuel always
suffices. -/
def checkSelf (w : World) : Nat → Nat → Char → Bool
  | 0, _, _ => false
  | fuel + 1, i, c =>
    match (getNode w i).kind with
    | .start => false
    | .termination => false
    | .dot => true
    | .ascii a => c = a
    | .star ch => checkSelf w fuel ch c
    | .plus ch => checkSelf w fuel ch c

/-- `check_self` with its standing fuel. -/
def checkSelfTop (w : World) (i : Nat) (c : Char) : Bool :=
  checkSelf w (w.length + 1) i c

/-- Insertion into a Python `set`, represented as a duplicate-free list. -/
def addSet (x : Nat) (l : List Nat) : List Nat :=
  if x ∈ l then l else x :: l

/-- Translation of `for next_s in ns: next_active_states.add(next_s)`. -/
def pushAll (ns : List Nat) (acc : List Nat) : List Nat :=
  ns.foldl (fun a n => addSet n a) acc

/-- Translation of `for next_s in ns: stack.append((next_s, False))`: the
stack grows by the successors in order, so (LIFO) the last successor is on
top.  The stack is modelled with its top at the head. -/
def revPush (ns : List Nat) (rest : List (Nat × Bool)) : List (Nat × Bool) :=
  (ns.map (fun n => (n, false))).reverse ++ rest

/-- Translation of the inner `while stack:` loop of
`RegexFSM.check_string` for one `initial_state` (the stack starts as
`[(initial_state, False)]` with a fresh `visited`), accumulating into the
shared `next_active_states` set `acc`.  The Python skip test
`current_state is None or current_state in visited and not el` can never
fire on `None` (no `None` is ever pushed), leaving
`current_state in visited and not el`.  The loop terminates because each
state is expanded at most once; the fuel makes that explicit and
`dfsFuel` below is proven sufficient. -/
def dfs (w : World) (c : Char) :
    Nat → List (Nat × Bool) → List Nat → List Nat → Option (List Nat)
  | 0, _, _, _ => none
  | _ + 1, [], _, acc => some acc
  | fuel + 1, (q, el) :: rest, visited, acc =>
    if q ∈ visited ∧ el = false then
      dfs w c fuel rest visited acc
    else
      let visited' := addSet q visited
      match (getNode w q).kind with
      | .star ch =>
        if el then
          -- second visit of a StarState: only the checking_state may enter
          -- the next active set
          if checkSelfTop w ch c then
            dfs w c fuel rest visited' (addSet ch acc)
          else
            dfs w c fuel rest visited' acc
        else
          dfs w c fuel ((q, true) :: revPush (getNode w q).next rest)
            visited' acc
      | .plus ch =>
        if checkSelfTop w ch c then
          dfs w c fuel (revPush (getNode w q).next rest) visited'
            (addSet ch acc)
        else
          dfs w c fuel (revPush (getNode w q).next rest) visited' acc
      | _ =>
        -- plain states (start, termination, dot, ascii): when the state
        -- accepts the character all successors enter the next active set;
        -- successors are pushed on the stack either way
        if checkSelfTop w q c then
          dfs w c fuel (revPush (getNode w q).next rest) visited'
            (pushAll (getNode w q).next acc)
        else
          dfs w c fuel (revPush (getNode w q).next rest) visited' acc

/-- Cost of expanding one state: one pop for its `(q, False)` item, one for
a potential `(q, True)` item, plus one pop per pushed successor. -/
def nodeCost (nd : Node) : Nat := 2 + nd.next.length

/-- Remaining expansion budget: total cost of the not-yet-visited states. -/
def cost (w : World) (visited : List Nat) : Nat :=
  (((List.range w.length).filter
      (fun q => !decide (q ∈ visited))).map
      (fun q => nodeCost (getNode w q))).sum

/-- Loop measure for the inner DFS: pending stack items plus the budget of
unvisited states.  It strictly decreases at every iteration. -/
def phi (w : World) (stack : List (Nat × Bool)) (visited : List Nat) : Nat :=
  stack.length + cost w visited

/-- Fuel that provably suffices for the inner DFS from any single initial
state. -/
def dfsFuel (w : World) : Nat := 2 + cost w []

/-- Translation of the `for initial_state in active_states:` loop: one DFS
per active state, all accumulating into the same `next_active_states`. -/
def stepChar (w : World) (c : Char) : List Nat → List Nat → Option (List Nat)
  | [], acc => some acc
  | i :: is, acc =>
    match dfs w c (dfsFuel w) [(i, false)] [] acc with
    | none => none
    | some acc' => stepChar w c is acc'

/-- Whether state `i` is the `TerminationState`
(`isinstance(state, TerminationState)`). -/
def isTermNode (w : World) (i : Nat) : Bool :=
  match (getNode w i).kind with
  | .termination => true
  | _ => false

/-- Translation of the `for char in input_str:` loop of
`RegexFSM.check_string` plus the final
`any(isinstance(state, TerminationState) ...)`.  Inside the loop, an empty
active set returns `False` immediately. -/
def checkLoop (w : World) : List Char → List Nat → Option Bool
  | [], active => some (active.any (isTermNode w))
  | c :: cs, active =>
    match stepChar w c active [] with
    | none => none
    | some na => if na.isEmpty then some false else checkLoop w cs na

/-- `check_string`, with fuel accounting made visible: `none` would mean
the inner DFS ran out of fuel, which is proven impossible. -/
def checkStringOpt (w : World) (s : String) : Option Bool :=
  checkLoop w s.toList [0]

/-- Translation of `RegexFSM.check_string(input_str)`: the active set
starts as `{self.curr_state}` (index 0). -/
def checkString (w : World) (s : String) : Bool :=
  (checkStringOpt w s).getD false

/-- Whether compilation succeeded (no `AttributeError` raised). -/
def isOkE (e : Except String World) : Bool :=
  match e with
  | .ok _ => true
  | .error _ => false

/-- Modelled from the spec: the matching contract of section 4
("return true iff there exists at least one path from Start to Termination
that consumes the entire input, where Literal/Wildcard/Star/Plus nodes
each consume exactly one character when taken, and Start/Termination
consume none").  `pathFrom w q cs` holds iff from state `q` some path of
`next_states` edges consumes exactly `cs` and ends by entering the
Termination state; a non-terminal step into state `r` consumes one
character accepted by `r`'s `check_self`. -/
def pathFrom (w : World) : Nat → List Char → Bool
  | q, [] => (getNode w q).next.any (fun r => isTermNode w r)
  | q, c :: cs =>
    (getNode w q).next.any
      (fun r => !isTermNode w r && checkSelfTop w r c && pathFrom w r cs)

/-- Modelled from the spec: acceptance by the path contract, starting at
the Start state. -/
def pathAccepts (w : World) (s : String) : Bool := pathFrom w 0 s.toList

/-- A call of the method `check_string` in state-threading form.  The
method body only reads `next_states` and allocates local sets
(`active_states`, `next_active_states`, `visited`, `stack`); it performs no
assignment to any state object, so the world component is returned
unchanged. -/
def checkCall (w : World) (s : String) : Bool × World := (checkString w s, w)

/-- A sequence of `check_string` calls against the same compiled object,
threading the world through each call. -/
def runChecks (w : World) : List String → List Bool × World
  | [] => ([], w)
  | s :: ss =>
    let r := checkCall w s
    let rest := runChecks r.2 ss
    (r.1 :: rest.1, rest.2)

/-- Compiled world of the pattern `"x*"`. -/
def Wxstar : World :=
  [⟨.start, [2]⟩, ⟨.termination, []⟩, ⟨.ascii 'x', [3, 3]⟩, ⟨.star 2, [2, 1]⟩]

/-- Compiled world of the pattern `"x+"`. -/
def Wxplus : World :=
  [⟨.start, [2]⟩, ⟨.termination, []⟩, ⟨.ascii 'x', [3, 3]⟩, ⟨.plus 2, [2, 1]⟩]

/-- Compiled world of the pattern `"ab"`. -/
def Wab : World :=
  [⟨.start, [2]⟩, ⟨.termination, []⟩, ⟨.ascii 'a', [3]⟩, ⟨.ascii 'b', [1]⟩]

/-- Compiled world of the pattern `"abc"`. -/
def Wabc : World :=
  [⟨.start, [2]⟩, ⟨.termination, []⟩, ⟨.ascii 'a', [3]⟩, ⟨.ascii 'b', [4]⟩,
   ⟨.ascii 'c', [1]⟩]

/-- Compiled world of the pattern `"a[b"`. -/
def Wbracket : World :=
  [⟨.start, [2]⟩, ⟨.termination, []⟩, ⟨.ascii 'a', [3]⟩, ⟨.ascii '[', [4]⟩,
   ⟨.ascii 'b', [1]⟩]

/-- Compiled world of the empty pattern. -/
def Wempty : World := [⟨.start, [1]⟩, ⟨.termination, []⟩]

/-- World after the first `RegexFSM("a")` construction. -/
def W7A : World := [⟨.start, [2]⟩, ⟨.termination, []⟩, ⟨.ascii 'a', [1]⟩]

/-- World after a second `RegexFSM("a")` construction in the same
process. -/
def W7B : World :=
  [⟨.start, [2, 3]⟩, ⟨.termination, []⟩, ⟨.ascii 'a', [1]⟩, ⟨.ascii 'a', [1]⟩]

/-- Invariant of compiled worlds: the only state of termination kind is
the shared `term_state` object at index 1. -/
def kindsOk (w : World) : Prop :=
  ∀ q, (getNode w q).kind = SKind.termination → q = 1

/-- Invariant of compiled worlds: no `StarState`/`PlusState` wraps the
Termination state. -/
def checkingOk (w : World) : Prop :=
  ∀ q ch,
    ((getNode w q).kind = SKind.star ch ∨ (getNode w q).kind = SKind.plus ch) →
      ch ≠ 1

/-- Invariant of worlds mid-compilation: the Termination state has not yet
been linked anywhere. -/
def no1 (w : World) : Prop := ∀ q, 1 ∉ (getNode w q).next

/-- Invariant of a freshly compiled world whose pattern ends in `*`/`+`:
the Termination state occurs only in the successor list of a
`StarState`/`PlusState`. -/
def termOnlyAfterSP (w : World) : Prop :=
  ∀ q, 1 ∈ (getNode w q).next →
    ∃ ch,
      (getNode w q).kind = SKind.star ch ∨ (getNode w q).kind = SKind.plus ch

/-!  Theorems.  -/

theorem mem_addSet {x q : Nat} {l : List Nat} :
    x ∈ addSet q l ↔ x = q ∨ x ∈ l := by
  by_cases h : q ∈ l
  · simp only [addSet, if_pos h]
    constructor
    · exact Or.inr
    · rintro (rfl | hx)
      · exact h
      · exact hx
  · simp only [addSet, if_neg h, List.mem_cons]

theorem mem_pushAll {x : Nat} :
    ∀ {ns acc : List Nat}, x ∈ pushAll ns acc → x ∈ ns ∨ x ∈ acc := by
  intro ns
  induction ns with
  | nil => intro acc h; exact Or.inr h
  | cons n ns ih =>
    intro acc h
    rcases ih h with hns | hacc
    · exact Or.inl (List.mem_cons_of_mem _ hns)
    · rcases mem_addSet.mp hacc with rfl | hx
      · exact Or.inl (List.mem_cons_self _ _)
      · exact Or.inr hx

theorem mem_revPush_true {p : Nat × Bool} {ns : List Nat}
    {rest : List (Nat × Bool)} (h : p ∈ revPush ns rest) (ht : p.2 = true) :
    p ∈ rest := by
  rcases List.mem_append.mp h with hl | hr
  · rcases List.mem_reverse.mp hl with hm
    rcases List.mem_map.mp hm with ⟨n, _, rfl⟩
    simp at ht
  · exact hr

theorem length_revPush (ns : List Nat) (rest : List (Nat × Bool)) :
    (revPush ns rest).length = ns.length + rest.length := by
  simp [revPush]

theorem getNode_ge {w : World} {q : Nat} (h : w.length ≤ q) :
    getNode w q = defaultNode :=
  List.getD_eq_default _ _ h

theorem getNode_append_lt {w : World} {x : Node} {q : Nat}
    (h : q < w.length) : getNode (w ++ [x]) q = getNode w q := by
  unfold getNode
  exact List.getD_append _ _ _ _ h

theorem getNode_append_len (w : World) (x : Node) :
    getNode (w ++ [x]) w.length = x := by
  unfold getNode
  rw [List.getD_eq_getElem?_getD, List.getElem?_append]
  simp

theorem getNode_setNext_ne {w : World} {i q : Nat} {ns : List Nat}
    (h : q ≠ i) : getNode (setNext w i ns) q = getNode w q := by
  unfold setNext getNode
  simp [List.getD_eq_getElem?_getD, List.getElem?_set_ne (Ne.symm h)]

theorem getNode_setNext_self {w : World} {i : Nat} {ns : List Nat}
    (h : i < w.length) :
    getNode (setNext w i ns) i = ⟨(getNode w i).kind, ns⟩ := by
  unfold setNext getNode
  rw [List.getD_eq_getElem?_getD, List.getElem?_set_self h]
  rfl

theorem length_setNext (w : World) (i : Nat) (ns : List Nat) :
    (setNext w i ns).length = w.length := by
  simp [setNext]

theorem length_appendNext (w : World) (i x : Nat) :
    (appendNext w i x).length = w.length := length_setNext _ _ _

theorem kind_appendNext (w : World) (i x q : Nat) :
    (getNode (appendNext w i x) q).kind = (getNode w q).kind := by
  unfold appendNext
  by_cases h : q = i
  · subst h
    by_cases hlt : q < w.length
    · rw [getNode_setNext_self hlt]
    · rw [getNode_ge (le_of_not_lt hlt),
        getNode_ge (by simpa [length_setNext] using le_of_not_lt hlt)]
  · rw [getNode_setNext_ne h]

theorem next_appendNext (w : World) (i x q : Nat) :
    (getNode (appendNext w i x) q).next =
      if q = i ∧ i < w.length then (getNode w q).next ++ [x]
      else (getNode w q).next := by
  unfold appendNext
  by_cases h : q = i
  · subst h
    by_cases hlt : q < w.length
    · rw [getNode_setNext_self hlt, if_pos ⟨rfl, hlt⟩]
    · rw [if_neg (fun hc => hlt hc.2),
        getNode_ge (by simpa [length_setNext] using le_of_not_lt hlt),
        getNode_ge (le_of_not_lt hlt)]
  · rw [getNode_setNext_ne h, if_neg (fun hc => h hc.1)]

/-- C1: the claim states that `check_string` returns true iff some path
from Start to Termination consumes the entire input.  The code violates
this contract: on the pattern `"abc"` and input `"ac"` there is no such
path (the single chain consumes exactly `"abc"`), yet `check_string`
returns true, because the traversal pushes successors onto the work stack
even when a state does not accept the current character, so later literals
are reachable without consuming the intervening ones. -/
theorem check_string_violates_path_contract :
    compileFresh "abc" = Except.ok Wabc ∧
      checkString Wabc "ac" = true ∧ pathAccepts Wabc "ac" = false :=
  ⟨rfl, rfl, rfl⟩

/-- C2: the claim states `"x*"` matches `""`, `"x"`, `"xxxx"` and rejects
`"y"`.  In the code a trailing `*` makes the pattern reject everything:
the Termination state is only ever reachable through the StarState's
`next_states`, which the Star traversal branch never copies into the next
active set, and the final acceptance test performs no closure.  All four
inputs yield false. -/
theorem star_pattern_never_matches_examples :
    compileFresh "x*" = Except.ok Wxstar ∧
      checkString Wxstar "" = false ∧ checkString Wxstar "x" = false ∧
      checkString Wxstar "xxxx" = false ∧ checkString Wxstar "y" = false :=
  ⟨rfl, rfl, rfl, rfl, rfl⟩

/-- C3: the claim states `"x+"` rejects `""` and matches `"x"` and
`"xxx"`.  The code rejects all three: as with `*`, the Termination state
sits only in the PlusState's successor list and is never promoted into the
active set. -/
theorem plus_pattern_never_matches_examples :
    compileFresh "x+" = Except.ok Wxplus ∧
      checkString Wxplus "" = false ∧ checkString Wxplus "x" = false ∧
      checkString Wxplus "xxx" = false :=
  ⟨rfl, rfl, rfl, rfl⟩

/-- C4 counterexample: the claim says compiling `"a[b"` fails with the
unsupported-character error and never returns a usable graph.  In the code
`'['` passes the `isascii()` guard and becomes an ordinary literal state:
compilation succeeds and the resulting graph matches the string
`"a[b"`. -/
theorem compile_bracket_succeeds :
    isOkE (compileFresh "a[b") = true ∧
      compileFresh "a[b" = Except.ok Wbracket ∧
      checkString Wbracket "a[b" = true :=
  ⟨rfl, rfl, rfl⟩

/-- C5: the claim states the empty pattern produces a graph accepting
exactly the empty string.  The code compiles the empty pattern to
`Start → Termination`, but `check_string("")` returns false: the final
acceptance test checks whether the Termination state is already in the
active set, which still holds only the Start state when no character was
consumed. -/
theorem empty_pattern_rejects_empty_string :
    compileFresh "" = Except.ok Wempty ∧
      checkString Wempty "" = false ∧ checkString Wempty "a" = false :=
  ⟨rfl, rfl, rfl⟩

/-- C6: the claim states that for literal-only patterns `check_string` is
true iff the input equals the pattern.  The code also accepts `"b"`
against the pattern `"ab"`: the work-stack traversal reaches the `'b'`
literal without consuming `'a'`, because successors are pushed even when a
state rejects the character. -/
theorem literal_pattern_matches_proper_suffix :
    compileFresh "ab" = Except.ok Wab ∧
      checkString Wab "b" = true ∧ checkString Wab "ab" = true :=
  ⟨rfl, rfl, rfl⟩

/-- C7: the claim states that compiling the same pattern twice yields two
independent graphs.  `RegexFSM.curr_state` and `RegexFSM.term_state` are
class attributes shared by every instance, so the second
`RegexFSM("a")` appends its own chain to the very start state the first
instance uses: the start state's `next_states` grows from `[2]` to
`[2, 3]`, mutating the first instance's graph. -/
theorem second_compile_mutates_shared_start :
    compile "a" initWorld = Except.ok W7A ∧
      compile "a" W7A = Except.ok W7B ∧
      (getNode W7B 0).next ≠ (getNode W7A 0).next :=
  ⟨rfl, rfl, by decide⟩

theorem initNextState_nonascii {c : Char} (w : World) (prev tmp : Nat)
    (h : ¬ c.toNat < 128) :
    initNextState c w prev tmp = .error "Character is not supported" := by
  have h1 : c ≠ '.' := by rintro rfl; exact h (by decide)
  have h2 : c ≠ '*' := by rintro rfl; exact h (by decide)
  have h3 : c ≠ '+' := by rintro rfl; exact h (by decide)
  have h4 : isAsciiChar c = false := by
    simp [isAsciiChar]
    omega
  simp [initNextState, h1, h2, h3, h4]

theorem initNextState_ascii {c : Char} (w : World) (prev tmp : Nat)
    (h : c.toNat < 128) :
    ∃ w1 n, initNextState c w prev tmp = .ok (w1, n) := by
  by_cases h1 : c = '.'
  · exact ⟨w ++ [⟨.dot, []⟩], w.length, by simp [initNextState, h1]⟩
  · by_cases h2 : c = '*'
    · exact ⟨appendNext (w ++ [⟨.star tmp, tmp :: (getNode w tmp).next⟩])
        tmp w.length, w.length, by simp [initNextState, h1, h2]⟩
    · by_cases h3 : c = '+'
      · exact ⟨appendNext (w ++ [⟨.plus tmp, tmp :: (getNode w tmp).next⟩])
          tmp w.length, w.length, by simp [initNextState, h1, h2, h3]⟩
      · have h4 : isAsciiChar c = true := by simp [isAsciiChar]; omega
        exact ⟨w ++ [⟨.ascii c, []⟩], w.length,
          by simp [initNextState, h1, h2, h3, h4]⟩

theorem compileAux_isOk (cs : List Char) :
    ∀ (w : World) (prev tmp : Nat),
      isOkE (compileAux cs w prev tmp) =
        cs.all (fun c => decide (c.toNat < 128)) := by
  induction cs with
  | nil => intro w prev tmp; simp [compileAux, isOkE]
  | cons c cs ih =>
    intro w prev tmp
    by_cases hA : c.toNat < 128
    · obtain ⟨w1, n, hok⟩ := initNextState_ascii w prev tmp hA
      simp [compileAux, hok, ih, hA]
    · simp [compileAux, initNextState_nonascii w prev tmp hA, isOkE, hA]

/-- C4 amended: compilation raises the unsupported-character error exactly
when some pattern character is not ASCII (code point at least 128); every
ASCII character that is not `.`, `*`, `+` is accepted as a literal, so
`"a[b"` compiles successfully (see `compile_bracket_succeeds`). -/
theorem compile_error_iff_nonascii (p : String) :
    isOkE (compileFresh p) = true ↔ ∀ c ∈ p.toList, c.toNat < 128 := by
  rw [compileFresh, compile, compileAux_isOk]
  simp [List.all_eq_true]

theorem sum_filter_le (f : Nat → Nat) (p p' : Nat → Bool)
    (h : ∀ x, p' x = true → p x = true) :
    ∀ l : List Nat, ((l.filter p').map f).sum ≤ ((l.filter p).map f).sum := by
  intro l
  induction l with
  | nil => simp
  | cons a l ih =>
    by_cases hp' : p' a = true
    · rw [List.filter_cons_of_pos hp', List.filter_cons_of_pos (h a hp')]
      simp only [List.map_cons, List.sum_cons]
      exact Nat.add_le_add_left ih _
    · rw [List.filter_cons_of_neg (by simpa using hp')]
      by_cases hp : p a = true
      · rw [List.filter_cons_of_pos hp]
        simp only [List.map_cons, List.sum_cons]
        exact le_trans ih (Nat.le_add_left _ _)
      · rw [List.filter_cons_of_neg (by simpa using hp)]
        exact ih

theorem sum_filter_erase (f : Nat → Nat) (v : List Nat) (q : Nat)
    (hqv : q ∉ v) :
    ∀ l : List Nat, l.Nodup → q ∈ l →
      ((l.filter (fun x => !decide (x ∈ v))).map f).sum =
        f q + ((l.filter (fun x => !decide (x ∈ addSet q v))).map f).sum := by
  intro l
  induction l with
  | nil => simp
  | cons a l ih =>
    intro hnd hql
    rcases List.nodup_cons.mp hnd with ⟨hal, hnd'⟩
    rcases List.mem_cons.mp hql with rfl | hql'
    · rw [List.filter_cons_of_pos (by simp [hqv]),
        List.filter_cons_of_neg (by simp [mem_addSet])]
      simp only [List.map_cons, List.sum_cons]
      have hfc : List.filter (fun x => !decide (x ∈ v)) l =
          List.filter (fun x => !decide (x ∈ addSet q v)) l := by
        apply List.filter_congr
        intro x hx
        have hxq : x ≠ q := fun hh => hal (hh ▸ hx)
        simp [mem_addSet, hxq]
      rw [hfc]
    · have haq : a ≠ q := fun hh => hal (hh ▸ hql')
      by_cases hav : a ∈ v
      · rw [List.filter_cons_of_neg (by simp [hav]),
          List.filter_cons_of_neg (by simp [mem_addSet, hav])]
        exact ih hnd' hql'
      · rw [List.filter_cons_of_pos (by simp [hav]),
          List.filter_cons_of_pos (by simp [mem_addSet, haq, hav])]
        simp only [List.map_cons, List.sum_cons]
        rw [ih hnd' hql']
        omega

theorem cost_addSet_le (w : World) (q : Nat) (v : List Nat) :
    cost w (addSet q v) ≤ cost w v := by
  unfold cost
  apply sum_filter_le
  intro x hx
  simp only [Bool.not_eq_true', decide_eq_false_iff_not] at hx ⊢
  exact fun hv => hx (mem_addSet.mpr (Or.inr hv))

theorem cost_addSet_lt {w : World} {q : Nat} {v : List Nat}
    (hq : q < w.length) (hqv : q ∉ v) :
    cost w v = nodeCost (getNode w q) + cost w (addSet q v) := by
  unfold cost
  exact sum_filter_erase _ v q hqv (List.range w.length)
    (List.nodup_range _) (List.mem_range.mpr hq)

theorem cost_addSet_ge {w : World} {q : Nat} (v : List Nat)
    (hq : w.length ≤ q) : cost w (addSet q v) = cost w v := by
  unfold cost
  have hfc : (List.range w.length).filter (fun x => !decide (x ∈ addSet q v)) =
      (List.range w.length).filter (fun x => !decide (x ∈ v)) := by
    apply List.filter_congr
    intro x hx
    have hxq : x ≠ q := by
      have := List.mem_range.mp hx
      omega
    simp [mem_addSet, hxq]
  rw [hfc]

theorem phi_pop_lt (w : World) (p : Nat × Bool) (rest : List (Nat × Bool))
    (visited : List Nat) : phi w rest visited < phi w (p :: rest) visited := by
  simp [phi]

theorem phi_pop_addSet_lt (w : World) (q : Nat) (el : Bool)
    (rest : List (Nat × Bool)) (visited : List Nat) :
    phi w rest (addSet q visited) < phi w ((q, el) :: rest) visited := by
  have h := cost_addSet_le w q visited
  simp only [phi, List.length_cons]
  omega

theorem phi_expand_lt (w : World) (q : Nat) (el : Bool)
    (rest : List (Nat × Bool)) (visited : List Nat) (hq : q ∉ visited) :
    phi w (revPush (getNode w q).next rest) (addSet q visited) <
      phi w ((q, el) :: rest) visited := by
  by_cases hlt : q < w.length
  · have hdec : cost w visited =
        2 + (getNode w q).next.length + cost w (addSet q visited) :=
      cost_addSet_lt hlt hq
    simp only [phi, length_revPush, List.length_cons]
    omega
  · have hns : (getNode w q).next = [] := by
      rw [getNode_ge (le_of_not_lt hlt)]
      rfl
    have hcost := cost_addSet_ge visited (le_of_not_lt hlt)
    simp only [phi, length_revPush, List.length_cons, hns, hcost,
      List.length_nil]
    omega

theorem phi_star_expand_lt (w : World) (q : Nat) (el : Bool)
    (rest : List (Nat × Bool)) (visited : List Nat) (hq : q ∉ visited)
    (hlt : q < w.length) :
    phi w ((q, true) :: revPush (getNode w q).next rest) (addSet q visited) <
      phi w ((q, el) :: rest) visited := by
  have hdec : cost w visited =
      2 + (getNode w q).next.length + cost w (addSet q visited) :=
    cost_addSet_lt hlt hq
  simp only [phi, length_revPush, List.length_cons]
  omega

theorem kind_lt_length {w : World} {q : Nat}
    (h : (getNode w q).kind ≠ SKind.start) : q < w.length := by
  by_contra hge
  rw [getNode_ge (le_of_not_lt hge)] at h
  exact h rfl

theorem dfs_some (w : World) (c : Char) :
    ∀ (fuel : Nat) (stack : List (Nat × Bool)) (visited acc : List Nat),
      (∀ p ∈ stack, p.2 = true →
        ∃ ch, (getNode w p.1).kind = SKind.star ch) →
      phi w stack visited < fuel →
      ∃ r, dfs w c fuel stack visited acc = some r := by
  intro fuel
  induction fuel with
  | zero =>
    intro stack visited acc _ hphi
    exact absurd hphi (Nat.not_lt_zero _)
  | succ fuel ih =>
    intro stack visited acc hst hphi
    rcases stack with _ | ⟨⟨q, el⟩, rest⟩
    · exact ⟨acc, rfl⟩
    have hstr : ∀ p ∈ rest, p.2 = true →
        ∃ ch, (getNode w p.1).kind = SKind.star ch :=
      fun p hp => hst p (List.mem_cons_of_mem _ hp)
    by_cases hskip : q ∈ visited ∧ el = false
    · rw [dfs, if_pos hskip]
      exact ih rest visited acc hstr
        (lt_of_lt_of_le (phi_pop_lt w _ rest visited) (Nat.lt_succ_iff.mp hphi))
    · rw [dfs, if_neg hskip]
      have hqnv : el = false → q ∉ visited := fun he hv => hskip ⟨hv, he⟩
      have hqstar : el = true →
          ∃ ch', (getNode w q).kind = SKind.star ch' :=
        fun ht => hst (q, el) (List.mem_cons_self _ _) ht
      have hinv : ∀ p ∈ revPush (getNode w q).next rest, p.2 = true →
          ∃ ch', (getNode w p.1).kind = SKind.star ch' :=
        fun p hp ht => hstr p (mem_revPush_true hp ht) ht
      have hphile := Nat.lt_succ_iff.mp hphi
      rcases hk : (getNode w q).kind with _ | _ | _ | a | ch | ch <;>
        simp only [hk]
      -- the four plain-state branches: start, termination, dot, ascii
      · have hq : q ∉ visited := by
          rcases el with _ | _
          · exact hqnv rfl
          · obtain ⟨ch', hch⟩ := hqstar rfl
            rw [hk] at hch
            cases hch
        have hphi' := lt_of_lt_of_le (phi_expand_lt w q el rest visited hq)
          hphile
        by_cases hcs : checkSelfTop w q c = true
        · rw [if_pos hcs]
          exact ih _ _ _ hinv hphi'
        · rw [if_neg hcs]
          exact ih _ _ _ hinv hphi'
      · have hq : q ∉ visited := by
          rcases el with _ | _
          · exact hqnv rfl
          · obtain ⟨ch', hch⟩ := hqstar rfl
            rw [hk] at hch
            cases hch
        have hphi' := lt_of_lt_of_le (phi_expand_lt w q el rest visited hq)
          hphile
        by_cases hcs : checkSelfTop w q c = true
        · rw [if_pos hcs]
          exact ih _ _ _ hinv hphi'
        · rw [if_neg hcs]
          exact ih _ _ _ hinv hphi'
      · have hq : q ∉ visited := by
          rcases el with _ | _
          · exact hqnv rfl
          · obtain ⟨ch', hch⟩ := hqstar rfl
            rw [hk] at hch
            cases hch
        have hphi' := lt_of_lt_of_le (phi_expand_lt w q el rest visited hq)
          hphile
        by_cases hcs : checkSelfTop w q c = true
        · rw [if_pos hcs]
          exact ih _ _ _ hinv hphi'
        · rw [if_neg hcs]
          exact ih _ _ _ hinv hphi'
      · have hq : q ∉ visited := by
          rcases el with _ | _
          · exact hqnv rfl
          · obtain ⟨ch', hch⟩ := hqstar rfl
            rw [hk] at hch
            cases hch
        have hphi' := lt_of_lt_of_le (phi_expand_lt w q el rest visited hq)
          hphile
        by_cases hcs : checkSelfTop w q c = true
        · rw [if_pos hcs]
          exact ih _ _ _ hinv hphi'
        · rw [if_neg hcs]
          exact ih _ _ _ hinv hphi'
      -- StarState
      · rcases el with _ | _
        · -- first visit: expand successors and requeue (q, True)
          have hq : q ∉ visited := hqnv rfl
          have hlt : q < w.length := kind_lt_length
            (by rw [hk]; intro h; cases h)
          simp only [Bool.false_eq_true, if_false]
          have hinv' : ∀ p ∈ (q, true) :: revPush (getNode w q).next rest,
              p.2 = true → ∃ ch', (getNode w p.1).kind = SKind.star ch' := by
            intro p hp ht
            rcases List.mem_cons.mp hp with rfl | hp'
            · exact ⟨ch, hk⟩
            · exact hstr p (mem_revPush_true hp' ht) ht
          exact ih _ _ _ hinv'
            (lt_of_lt_of_le (phi_star_expand_lt w q false rest visited hq hlt)
              hphile)
        · -- second visit: only pops
          simp only [if_true]
          have hphi' := lt_of_lt_of_le
            (phi_pop_addSet_lt w q true rest visited) hphile
          by_cases hcs : checkSelfTop w ch c = true
          · rw [if_pos hcs]
            exact ih _ _ _ hstr hphi'
          · rw [if_neg hcs]
            exact ih _ _ _ hstr hphi'
      -- PlusState
      · have hq : q ∉ visited := by
          rcases el with _ | _
          · exact hqnv rfl
          · obtain ⟨ch', hch⟩ := hqstar rfl
            rw [hk] at hch
            cases hch
        have hphi' := lt_of_lt_of_le (phi_expand_lt w q el rest visited hq)
          hphile
        by_cases hcs : checkSelfTop w ch c = true
        · rw [if_pos hcs]
          exact ih _ _ _ hinv hphi'
        · rw [if_neg hcs]
          exact ih _ _ _ hinv hphi'

theorem stepChar_some (w : World) (c : Char) :
    ∀ (active acc : List Nat), ∃ r, stepChar w c active acc = some r := by
  intro active
  induction active with
  | nil => exact fun acc => ⟨acc, rfl⟩
  | cons i is ih =>
    intro acc
    obtain ⟨r, hr⟩ := dfs_some w c (dfsFuel w) [(i, false)] [] acc
      (by intro p hp ht; rcases List.mem_singleton.mp hp with rfl; cases ht)
      (by simp [phi, dfsFuel, cost])
    obtain ⟨r', hr'⟩ := ih r
    exact ⟨r', by rw [stepChar, hr]; exact hr'⟩

theorem checkLoop_some (w : World) :
    ∀ (cs : List Char) (active : List Nat),
      ∃ b, checkLoop w cs active = some b := by
  intro cs
  induction cs with
  | nil => exact fun active => ⟨_, rfl⟩
  | cons c cs ih =>
    intro active
    obtain ⟨na, hna⟩ := stepChar_some w c active []
    by_cases hemp : na.isEmpty = true
    · exact ⟨false, by rw [checkLoop, hna]; exact if_pos hemp⟩
    · obtain ⟨b, hb⟩ := ih na
      exact ⟨b, by rw [checkLoop, hna]; exact (if_neg hemp).trans hb⟩

/-- C8: for every compiled pattern, `check_string` is total.  The inner
worklist loop's fuel (`dfsFuel`) is proven sufficient via the strictly
decreasing measure `phi`, so the fuel-instrumented matcher never reports
exhaustion: it always returns the boolean verdict `checkString` yields. -/
theorem check_string_total (p : String) (w : World)
    (hc : compileFresh p = Except.ok w) (s : String) :
    checkStringOpt w s = some (checkString w s) := by
  obtain ⟨b, hb⟩ := checkLoop_some w s.toList [0]
  have : checkStringOpt w s = some b := hb
  rw [this, checkString, checkStringOpt, hb]
  rfl

/-- C8 witness: totality instantiated on the compiled pattern `"ab"` and
the input `"b"`. -/
theorem check_string_total_witness :
    checkStringOpt Wab "b" = some (checkString Wab "b") :=
  check_string_total "ab" Wab rfl "b"

theorem append_node_spec (w : World) (nd : Node) :
    (∀ q, q ≠ w.length → (getNode (w ++ [nd]) q).kind = (getNode w q).kind) ∧
      getNode (w ++ [nd]) w.length = nd ∧
      (∀ q x, x ∈ (getNode (w ++ [nd]) q).next →
        x ∈ (getNode w q).next ∨ x ∈ nd.next) := by
  refine ⟨?_, getNode_append_len w nd, ?_⟩
  · intro q hqn
    by_cases hlt : q < w.length
    · rw [getNode_append_lt hlt]
    · have hge : (w ++ [nd]).length ≤ q := by
        simp only [List.length_append, List.length_singleton]
        omega
      rw [getNode_ge hge, getNode_ge (le_of_not_lt hlt)]
  · intro q x hx
    by_cases hlt : q < w.length
    · rw [getNode_append_lt hlt] at hx
      exact Or.inl hx
    · by_cases hq : q = w.length
      · subst hq
        rw [getNode_append_len] at hx
        exact Or.inr hx
      · rw [getNode_ge (by simp only [List.length_append,
          List.length_singleton]; omega)] at hx
        cases hx

theorem mem_next_appendNext {w : World} {i x q y : Nat}
    (h : y ∈ (getNode (appendNext w i x) q).next) :
    y ∈ (getNode w q).next ∨ y = x := by
  rw [next_appendNext] at h
  split at h
  · rcases List.mem_append.mp h with h1 | h1
    · rename_i hc
      rcases hc with ⟨rfl, _⟩
      exact Or.inl h1
    · exact Or.inr (List.mem_singleton.mp h1)
  · exact Or.inl h

theorem initNextState_spec {c : Char} {w w1 : World} {prev tmp n : Nat}
    (h : initNextState c w prev tmp = .ok (w1, n)) :
    n = w.length ∧ w1.length = w.length + 1 ∧
      (∀ q, q ≠ n → (getNode w1 q).kind = (getNode w q).kind) ∧
      ((getNode w1 n).kind = SKind.dot ∨
        (∃ a, (getNode w1 n).kind = SKind.ascii a) ∨
        (getNode w1 n).kind = SKind.star tmp ∨
        (getNode w1 n).kind = SKind.plus tmp) ∧
      (∀ q x, x ∈ (getNode w1 q).next →
        x ∈ (getNode w q).next ∨ x ∈ (getNode w tmp).next ∨
          x = tmp ∨ x = n) ∧
      ((c = '*' ∨ c = '+') →
        (getNode w1 n).kind = SKind.star tmp ∨
          (getNode w1 n).kind = SKind.plus tmp) := by
  simp only [initNextState] at h
  by_cases h1 : c = '.'
  · rw [if_pos h1] at h
    injection h with h
    injection h with hw hn
    subst hw
    have hn' : n = w.length := hn.symm
    subst hn'
    obtain ⟨hk, hlen, hnx⟩ := append_node_spec w ⟨.dot, []⟩
    refine ⟨rfl, by simp, hk, Or.inl (by rw [hlen]), ?_, ?_⟩
    · intro q x hx
      rcases hnx q x hx with h2 | h2
      · exact Or.inl h2
      · cases h2
    · intro hc
      rcases hc with rfl | rfl <;> exact absurd h1 (by decide)
  · rw [if_neg h1] at h
    by_cases h2 : c = '*'
    · rw [if_pos h2] at h
      injection h with h
      injection h with hw hn
      subst hw
      have hn' : n = w.length := hn.symm
      subst hn'
      obtain ⟨hk, hlen, hnx⟩ :=
        append_node_spec w ⟨.star tmp, tmp :: (getNode w tmp).next⟩
      refine ⟨rfl, by simp [length_appendNext], ?_, ?_, ?_, ?_⟩
      · intro q hqn
        rw [kind_appendNext]
        exact hk q hqn
      · refine Or.inr (Or.inr (Or.inl ?_))
        rw [kind_appendNext, hlen]
      · intro q x hx
        rcases mem_next_appendNext hx with h3 | rfl
        · rcases hnx q x h3 with h4 | h4
          · exact Or.inl h4
          · rcases List.mem_cons.mp h4 with rfl | h5
            · exact Or.inr (Or.inr (Or.inl rfl))
            · exact Or.inr (Or.inl h5)
        · exact Or.inr (Or.inr (Or.inr rfl))
      · intro _
        refine Or.inl ?_
        rw [kind_appendNext, hlen]
    · rw [if_neg h2] at h
      by_cases h3 : c = '+'
      · rw [if_pos h3] at h
        injection h with h
        injection h with hw hn
        subst hw
        have hn' : n = w.length := hn.symm
        subst hn'
        obtain ⟨hk, hlen, hnx⟩ :=
          append_node_spec w ⟨.plus tmp, tmp :: (getNode w tmp).next⟩
        refine ⟨rfl, by simp [length_appendNext], ?_, ?_, ?_, ?_⟩
        · intro q hqn
          rw [kind_appendNext]
          exact hk q hqn
        · refine Or.inr (Or.inr (Or.inr ?_))
          rw [kind_appendNext, hlen]
        · intro q x hx
          rcases mem_next_appendNext hx with h4 | rfl
          · rcases hnx q x h4 with h5 | h5
            · exact Or.inl h5
            · rcases List.mem_cons.mp h5 with rfl | h6
              · exact Or.inr (Or.inr (Or.inl rfl))
              · exact Or.inr (Or.inl h6)
          · exact Or.inr (Or.inr (Or.inr rfl))
        · intro _
          refine Or.inr ?_
          rw [kind_appendNext, hlen]
      · rw [if_neg h3] at h
        by_cases h4 : isAsciiChar c = true
        · rw [if_pos h4] at h
          injection h with h
          injection h with hw hn
          subst hw
          have hn' : n = w.length := hn.symm
          subst hn'
          obtain ⟨hk, hlen, hnx⟩ := append_node_spec w ⟨.ascii c, []⟩
          refine ⟨rfl, by simp, hk, Or.inr (Or.inl ⟨c, by rw [hlen]⟩),
            ?_, ?_⟩
          · intro q x hx
            rcases hnx q x hx with h5 | h5
            · exact Or.inl h5
            · cases h5
          · intro hc
            rcases hc with rfl | rfl
            · exact absurd h2 (by simp)
            · exact absurd h3 (by simp)
        · rw [if_neg h4] at h
          cases h

theorem compileAux_inv (cs : List Char) :
    ∀ (w : World) (prev tmp : Nat) (w' : World),
      compileAux cs w prev tmp = .ok w' →
      no1 w → kindsOk w → checkingOk w → tmp ≠ 1 → prev ≠ 1 →
      2 ≤ w.length →
      ((cs = [] ∧ ∃ ch, (getNode w prev).kind = SKind.star ch ∨
          (getNode w prev).kind = SKind.plus ch) ∨
        cs.getLast? = some '*' ∨ cs.getLast? = some '+') →
      kindsOk w' ∧ checkingOk w' ∧ termOnlyAfterSP w' := by
  induction cs with
  | nil =>
    intro w prev tmp w' hok hno1 hkind hchk htmp hprev hlen hlast
    simp only [compileAux] at hok
    injection hok with hok
    subst hok
    rcases hlast with ⟨_, ch, hsp⟩ | hcons | hcons
    · refine ⟨?_, ?_, ?_⟩
      · intro q hq
        rw [kind_appendNext] at hq
        exact hkind q hq
      · intro q ch' hq
        rw [kind_appendNext] at hq
        exact hchk q ch' hq
      · intro q h1
        rcases mem_next_appendNext h1 with h2 | h2
        · exact absurd h2 (hno1 q)
        · -- the appended edge: only possible when q = prev
          rw [next_appendNext] at h1
          by_cases hc : q = prev ∧ prev < w.length
          · rcases hc with ⟨rfl, _⟩
            exact ⟨ch, by rw [kind_appendNext]; exact hsp⟩
          · rw [if_neg hc] at h1
            exact absurd h1 (hno1 q)
    · simp at hcons
    · simp at hcons
  | cons c cs ih =>
    intro w prev tmp w' hok hno1 hkind hchk htmp hprev hlen hlast
    rw [compileAux] at hok
    rcases hini : initNextState c w prev tmp with e | p
    · rw [hini] at hok
      cases hok
    · rcases p with ⟨w1, n⟩
      rw [hini] at hok
      obtain ⟨hn, hlen1, hkq, hkn, hnx, hsp⟩ := initNextState_spec hini
      have hn2 : 2 ≤ n := hn ▸ hlen
      have hn1 : n ≠ 1 := by omega
      -- invariants for the world after `prev_state.next_states.append(...)`
      have hno1' : no1 (appendNext w1 prev n) := by
        intro q h1
        rcases mem_next_appendNext h1 with h2 | h2
        · rcases hnx q 1 h2 with h3 | h3 | h3 | h3
          · exact hno1 q h3
          · exact hno1 tmp h3
          · exact htmp h3.symm
          · exact hn1 h3.symm
        · exact hn1 h2.symm
      have hkind' : kindsOk (appendNext w1 prev n) := by
        intro q hq
        rw [kind_appendNext] at hq
        by_cases hqn : q = n
        · subst hqn
          rcases hkn with h3 | ⟨a, h3⟩ | h3 | h3 <;> rw [h3] at hq <;> cases hq
        · rw [hkq q hqn] at hq
          exact hkind q hq
      have hchk' : checkingOk (appendNext w1 prev n) := by
        intro q ch' hq
        rw [kind_appendNext] at hq
        by_cases hqn : q = n
        · subst hqn
          rcases hkn with h3 | ⟨a, h3⟩ | h3 | h3 <;> rw [h3] at hq
          · rcases hq with hq | hq <;> cases hq
          · rcases hq with hq | hq <;> cases hq
          · rcases hq with hq | hq
            · injection hq with hq
              subst hq
              exact htmp
            · cases hq
          · rcases hq with hq | hq
            · cases hq
            · injection hq with hq
              subst hq
              exact htmp
        · rw [hkq q hqn] at hq
          exact hchk q ch' hq
      have hlen' : 2 ≤ (appendNext w1 prev n).length := by
        rw [length_appendNext, hlen1]
        omega
      have hlast' : (cs = [] ∧ ∃ ch,
          (getNode (appendNext w1 prev n) n).kind = SKind.star ch ∨
            (getNode (appendNext w1 prev n) n).kind = SKind.plus ch) ∨
          cs.getLast? = some '*' ∨ cs.getLast? = some '+' := by
        rcases hlast with ⟨hceq, _⟩ | hx | hx
        · cases hceq
        · rcases cs with _ | ⟨d, cs2⟩
          · -- last char of the whole pattern is c = '*'
            simp only [List.getLast?_singleton] at hx
            injection hx with hx
            refine Or.inl ⟨rfl, tmp, ?_⟩
            rw [kind_appendNext]
            exact hsp (Or.inl hx)
          · rw [List.getLast?_cons_cons] at hx
            exact Or.inr (Or.inl hx)
        · rcases cs with _ | ⟨d, cs2⟩
          · simp only [List.getLast?_singleton] at hx
            injection hx with hx
            refine Or.inl ⟨rfl, tmp, ?_⟩
            rw [kind_appendNext]
            exact hsp (Or.inr hx)
          · rw [List.getLast?_cons_cons] at hx
            exact Or.inr (Or.inr hx)
      exact ih (appendNext w1 prev n) n n w' hok hno1' hkind' hchk'
        hn1 hn1 hlen' hlast'

theorem no1_initWorld : no1 initWorld := by
  intro q
  rcases q with _ | _ | q
  · simp [getNode, initWorld]
  · simp [getNode, initWorld]
  · rw [getNode_ge (by simp [initWorld])]
    simp [defaultNode]

theorem kindsOk_initWorld : kindsOk initWorld := by
  intro q hq
  rcases q with _ | _ | q
  · cases hq
  · rfl
  · rw [getNode_ge (by simp [initWorld])] at hq
    cases hq

theorem checkingOk_initWorld : checkingOk initWorld := by
  intro q ch hq
  rcases q with _ | _ | q
  · rcases hq with hq | hq <;> cases hq
  · rcases hq with hq | hq <;> cases hq
  · rw [getNode_ge (by simp [initWorld])] at hq
    rcases hq with hq | hq <;> cases hq

theorem dfs_no1 (w : World) (c : Char) (hA : termOnlyAfterSP w)
    (hB : checkingOk w) :
    ∀ (fuel : Nat) (stack : List (Nat × Bool)) (visited acc : List Nat),
      (∀ x ∈ acc, x ≠ 1) →
      ∀ r, dfs w c fuel stack visited acc = some r → ∀ x ∈ r, x ≠ 1 := by
  intro fuel
  induction fuel with
  | zero =>
    intro stack visited acc _ r hr
    cases hr
  | succ fuel ih =>
    intro stack visited acc hacc r hr
    rcases stack with _ | ⟨⟨q, el⟩, rest⟩
    · rw [dfs] at hr
      injection hr with hr
      subst hr
      exact hacc
    by_cases hskip : q ∈ visited ∧ el = false
    · rw [dfs, if_pos hskip] at hr
      exact ih rest visited acc hacc r hr
    · rw [dfs, if_neg hskip] at hr
      rcases hk : (getNode w q).kind with _ | _ | _ | a | ch | ch <;>
        simp only [hk] at hr
      -- plain states: start, termination, dot, ascii — when the state
      -- accepts, all its successors are added, none of which is 1
      · by_cases hcs : checkSelfTop w q c = true
        · rw [if_pos hcs] at hr
          refine ih _ _ _ ?_ r hr
          intro x hx
          rcases mem_pushAll hx with h1 | h1
          · intro hx1
            subst hx1
            obtain ⟨ch', hch'⟩ := hA q h1
            rw [hk] at hch'
            rcases hch' with h2 | h2 <;> cases h2
          · exact hacc x h1
        · rw [if_neg hcs] at hr
          exact ih _ _ _ hacc r hr
      · by_cases hcs : checkSelfTop w q c = true
        · rw [if_pos hcs] at hr
          refine ih _ _ _ ?_ r hr
          intro x hx
          rcases mem_pushAll hx with h1 | h1
          · intro hx1
            subst hx1
            obtain ⟨ch', hch'⟩ := hA q h1
            rw [hk] at hch'
            rcases hch' with h2 | h2 <;> cases h2
          · exact hacc x h1
        · rw [if_neg hcs] at hr
          exact ih _ _ _ hacc r hr
      · by_cases hcs : checkSelfTop w q c = true
        · rw [if_pos hcs] at hr
          refine ih _ _ _ ?_ r hr
          intro x hx
          rcases mem_pushAll hx with h1 | h1
          · intro hx1
            subst hx1
            obtain ⟨ch', hch'⟩ := hA q h1
            rw [hk] at hch'
            rcases hch' with h2 | h2 <;> cases h2
          · exact hacc x h1
        · rw [if_neg hcs] at hr
          exact ih _ _ _ hacc r hr
      · by_cases hcs : checkSelfTop w q c = true
        · rw [if_pos hcs] at hr
          refine ih _ _ _ ?_ r hr
          intro x hx
          rcases mem_pushAll hx with h1 | h1
          · intro hx1
            subst hx1
            obtain ⟨ch', hch'⟩ := hA q h1
            rw [hk] at hch'
            rcases hch' with h2 | h2 <;> cases h2
          · exact hacc x h1
        · rw [if_neg hcs] at hr
          exact ih _ _ _ hacc r hr
      -- StarState: only the checking state (never 1) may be added
      · rcases el with _ | _
        · simp only [Bool.false_eq_true, if_false] at hr
          exact ih _ _ _ hacc r hr
        · simp only [if_true] at hr
          by_cases hcs : checkSelfTop w ch c = true
          · rw [if_pos hcs] at hr
            refine ih _ _ _ ?_ r hr
            intro x hx
            rcases mem_addSet.mp hx with rfl | h1
            · exact hB q x (Or.inl hk)
            · exact hacc x h1
          · rw [if_neg hcs] at hr
            exact ih _ _ _ hacc r hr
      -- PlusState: likewise only the checking state may be added
      · by_cases hcs : checkSelfTop w ch c = true
        · rw [if_pos hcs] at hr
          refine ih _ _ _ ?_ r hr
          intro x hx
          rcases mem_addSet.mp hx with rfl | h1
          · exact hB q x (Or.inr hk)
          · exact hacc x h1
        · rw [if_neg hcs] at hr
          exact ih _ _ _ hacc r hr

theorem stepChar_no1 (w : World) (c : Char) (hA : termOnlyAfterSP w)
    (hB : checkingOk w) :
    ∀ (active acc : List Nat), (∀ x ∈ acc, x ≠ 1) →
      ∀ r, stepChar w c active acc = some r → ∀ x ∈ r, x ≠ 1 := by
  intro active
  induction active with
  | nil =>
    intro acc hacc r hr
    rw [stepChar] at hr
    injection hr with hr
    subst hr
    exact hacc
  | cons i is ih =>
    intro acc hacc r hr
    rw [stepChar] at hr
    rcases hd : dfs w c (dfsFuel w) [(i, false)] [] acc with _ | acc'
    · rw [hd] at hr
      cases hr
    · rw [hd] at hr
      exact ih acc' (dfs_no1 w c hA hB _ _ _ _ hacc acc' hd) r hr

theorem checkLoop_ne_true (w : World) (hA : termOnlyAfterSP w)
    (hB : checkingOk w) (hC : kindsOk w) :
    ∀ (cs : List Char) (active : List Nat), (∀ x ∈ active, x ≠ 1) →
      checkLoop w cs active ≠ some true := by
  intro cs
  induction cs with
  | nil =>
    intro active hact h
    rw [checkLoop] at h
    injection h with h
    rcases List.any_eq_true.mp h with ⟨x, hx, hterm⟩
    have hkind : (getNode w x).kind = SKind.termination := by
      revert hterm
      unfold isTermNode
      rcases (getNode w x).kind <;> simp
    exact hact x hx (hC x hkind)
  | cons c cs ih =>
    intro active hact h
    rw [checkLoop] at h
    rcases hs : stepChar w c active [] with _ | na
    · rw [hs] at h
      cases h
    · rw [hs] at h
      simp only [] at h
      by_cases hemp : na.isEmpty = true
      · rw [if_pos hemp] at h
        cases h
      · rw [if_neg hemp] at h
        exact ih na (stepChar_no1 w c hA hB active [] (by intro x hx; cases hx)
          na hs) h

/-- C10: a non-empty pattern ending in `*` or `+` rejects every input.  In
such a compiled graph the Termination state appears only in the successor
list of the final Star/Plus state, the Star/Plus traversal branches add
only their checking state to the next active set, and plain accepting
states never have the Termination state as a successor — so the
Termination state never enters the active set and the final membership
test always fails. -/
theorem trailing_star_plus_rejects_all (p : String) (w : World)
    (hne : p.toList ≠ [])
    (hlast : p.toList.getLast? = some '*' ∨ p.toList.getLast? = some '+')
    (hc : compileFresh p = Except.ok w) (s : String) :
    checkString w s = false := by
  obtain ⟨hC, hB, hA⟩ := compileAux_inv p.toList initWorld 0 0 w hc
    no1_initWorld kindsOk_initWorld checkingOk_initWorld
    (by omega) (by omega) (by simp [initWorld]) (Or.inr hlast)
  have h0 : ∀ x ∈ ([0] : List Nat), x ≠ 1 := by
    intro x hx
    rcases List.mem_singleton.mp hx with rfl
    omega
  have hne' := checkLoop_ne_true w hA hB hC s.toList [0] h0
  rw [checkString, checkStringOpt]
  rcases hres : checkLoop w s.toList [0] with _ | b
  · rfl
  · rcases b with _ | _
    · rfl
    · exact absurd hres hne'

/-- C10 witness: the pattern `"x*"` (non-empty, ending in `*`) compiled
fresh rejects the input `"x"`. -/
theorem trailing_star_plus_rejects_all_witness :
    checkString Wxstar "x" = false :=
  trailing_star_plus_rejects_all "x*" Wxstar (by decide)
    (Or.inl (by decide)) rfl "x"

/-- C9: `check_string` never mutates the compiled graph.  The method body
assigns no state attribute (it only reads `next_states` and builds the
local sets `active_states`, `next_active_states`, `visited` and the local
`stack`), so a sequence of calls leaves the world untouched and every call
answers exactly as a fresh compile of the same pattern would. -/
theorem check_string_pure (p : String) (w : World)
    (hc : compileFresh p = Except.ok w) (inputs : List String) :
    (runChecks w inputs).2 = w ∧
      (runChecks w inputs).1 = inputs.map (fun s => checkString w s) := by
  induction inputs with
  | nil => exact ⟨rfl, rfl⟩
  | cons s ss ih =>
    refine ⟨?_, ?_⟩
    · rw [runChecks]
      exact ih.1
    · rw [runChecks, List.map_cons]
      exact congrArg (checkString w s :: ·) ih.2

/-- C9 witness: two successive `check_string` calls on the compiled
pattern `"ab"` leave its graph unchanged and report the fresh-compile
verdicts. -/
theorem check_string_pure_witness :
    (runChecks Wab ["ab", "b"]).2 = Wab ∧
      (runChecks Wab ["ab", "b"]).1 =
        List.map (fun s => checkString Wab s) ["ab", "b"] :=
  check_string_pure "ab" Wab rfl ["ab", "b"]

end DiscreteRegex
